import Mathlib

/-!
Shallow embedding of the derived-field evaluation engine of the
dynamic-form-builder repository (PreviewForm in src/unnamed/part_000,
plus the MyForms listing component), together with proofs settling the
frozen claims about the natural-language specification.

JavaScript objects `Record<string, any>` are modelled as association
lists with insertion-order-preserving write semantics; JavaScript
primitive values appearing in the value map are modelled by the
inductive type `Val`; the host platform's dynamic code execution
(`new Function`) and `JSON.parse` are abstracted as function
parameters, since they are not code of this repository.
-/

namespace FormBuilder

/-- JavaScript primitive values that can occur in the form's value map:
strings, (integer) numbers, arrays of strings (checkbox selections),
`null` and `undefined`. -/
inductive Val where
  | str : String → Val
  | num : Int → Val
  | list : List String → Val
  | null : Val
  | undef : Val
deriving DecidableEq, Repr

/-- A JavaScript object `Record<string, α>`: an association list in
insertion order, keys unique by construction of the write operation. -/
abbrev AMap (α : Type) : Type := List (String × α)

/-- Property read `m[k]`, as an `Option`. -/
def vget? {α : Type} (m : AMap α) (k : String) : Option α :=
  (List.find? (fun p => p.1 == k) m).map (fun p => p.2)

/-- Property read `m[k]` on a value map: JavaScript yields `undefined`
when the key is absent. -/
def vgetD (m : AMap Val) (k : String) : Val :=
  (vget? m k).getD Val.undef

/-- The JavaScript `k in m` test. -/
def vhas {α : Type} (m : AMap α) (k : String) : Bool :=
  List.any m (fun p => p.1 == k)

/-- Property write `m[k] = v`: overwrites in place when the key exists
(JavaScript keeps the key's insertion position; keys are unique in a
JavaScript object, so replacing the first occurrence is exact),
otherwise appends. -/
def vset {α : Type} : AMap α → String → α → AMap α
  | [], k, v => [(k, v)]
  | p :: t, k, v => if p.1 == k then (k, v) :: t else p :: vset t k v

/-- Property deletion `delete m[k]`. -/
def vdel {α : Type} (m : AMap α) (k : String) : AMap α :=
  List.filter (fun p => !(p.1 == k)) m

/-- The `validation` block of a field (interface `Validation`,
src/unnamed/part_000 lines 18-26).  Optional booleans are modelled as
`Bool` (they are only ever used truthily, and `undefined` is falsy);
optional numbers as `Option Nat`. -/
structure Validation where
  required : Bool
  minLength : Option Nat := none
  maxLength : Option Nat := none
  email : Bool := false
  password : Bool := false
  correctAnswers : Option (List String) := none
  correctAnswer : Option String := none
deriving DecidableEq, Repr

/-- A field definition (interface `Field`, src/unnamed/part_000
lines 28-38), fields in source order. -/
structure Field where
  derived : Bool := false
  parentFields : Option (List String) := none
  formula : Option String := none
  id : String
  type : String
  label : String
  defaultValue : Option String := none
  options : Option (List String) := none
  validation : Validation
deriving DecidableEq, Repr

/-- A form schema (interface `FormSchema`, src/unnamed/part_000
lines 40-43). -/
structure FormSchema where
  name : String
  fields : List Field
deriving DecidableEq, Repr

/-- The guard `val === '' || val === undefined || val === null` used by
the evaluator's short-circuit check (src/unnamed/part_000 line 75). -/
def isEmptyish : Val → Bool
  | Val.str s => s == ""
  | Val.null => true
  | Val.undef => true
  | _ => false

/-- Abstraction of the host platform's dynamic code execution: running
`new Function(params, "use strict; return (formula);")` on the values
of a named context (the fixed helpers `Date`, `Math`, `parseInt`,
`parseFloat`, `calculateAge` are ambient inside it).  An `Except.error`
models a thrown exception (syntax error, runtime error, unknown
identifier). -/
abbrev RunF : Type := String → AMap Val → Except Unit Val

/-- `evalFormula` of PreviewForm (src/unnamed/part_000 lines 72-113):
if any value of the supplied context is the empty string, `undefined`
or `null`, return `''` without running the formula; otherwise run the
formula, converting any thrown exception to the sentinel `'Error'`. -/
def evalFormula (runF : RunF) (formula : String) (context : AMap Val) : Val :=
  if List.any context (fun p => isEmptyish p.2) then Val.str ""
  else
    match runF formula context with
    | Except.ok v => v
    | Except.error _ => Val.str "Error"

/-- The label-to-variable normalization
`label.toLowerCase().replace(/\s+/g, '_')` (src/unnamed/part_000
line 129): lower-case the label and replace every maximal run of
whitespace with a single underscore.  The accumulator's boolean records
whether the previous character was whitespace. -/
def normalizeLabel (label : String) : String :=
  (List.foldl
    (fun (acc : String × Bool) (c : Char) =>
      if c.isWhitespace then
        if acc.2 then acc else (acc.1.push '_', true)
      else (acc.1.push c, false))
    ("", false) (label.data.map Char.toLower)).1

/-- The truthiness guard `field.derived && field.parentFields &&
field.formula` (src/unnamed/part_000 line 122): an array is always
truthy (even empty), a string is truthy iff nonempty. -/
def derivedActive (field : Field) : Bool :=
  field.derived && field.parentFields.isSome &&
    (match field.formula with
     | some s => !(s == "")
     | none => false)

/-- The inner `parentFields.forEach` loop of `updateDerivedFields`
(src/unnamed/part_000 lines 123-134), the spec's Dependency Resolver
`buildContext`: for each parent id, if it resolves to a field of the
schema and has an entry in the value map, bind the parent's value to
the variable named by the parent's normalized label; otherwise mark
`hasAllParents = false`. -/
def buildContextStep (fields : List Field) (currentValues : AMap Val)
    (acc : AMap Val × Bool) (parentId : String) : AMap Val × Bool :=
  match List.find? (fun f => f.id == parentId) fields with
  | some parentField =>
      if vhas currentValues parentId then
        (vset acc.1 (normalizeLabel parentField.label)
          (vgetD currentValues parentId), acc.2)
      else (acc.1, false)
  | none => (acc.1, false)

/-- The whole `parentFields.forEach` loop: fold `buildContextStep` over
the parent ids, starting from an empty context and `hasAllParents =
true`. -/
def buildContext (fields : List Field) (currentValues : AMap Val)
    (parentIds : List String) : AMap Val × Bool :=
  List.foldl (buildContextStep fields currentValues)
    (([] : AMap Val), true) parentIds

/-- One iteration of the `schema.fields.forEach` loop of
`updateDerivedFields` (src/unnamed/part_000 lines 121-150).  Note that
the context is built from `currentValues` (the function's argument),
while reads/writes of the derived value itself go through the working
copy `newValues` (the accumulator); the boolean is `hasChanges`. -/
def reconcileStep (runF : RunF) (fields : List Field)
    (currentValues : AMap Val) (acc : AMap Val × Bool) (field : Field) :
    AMap Val × Bool :=
  if derivedActive field then
    if (buildContext fields currentValues (field.parentFields.getD [])).2 then
      if !(vgetD acc.1 field.id ==
            evalFormula runF (field.formula.getD "")
              (buildContext fields currentValues (field.parentFields.getD [])).1) then
        (vset acc.1 field.id
          (evalFormula runF (field.formula.getD "")
            (buildContext fields currentValues (field.parentFields.getD [])).1),
         true)
      else acc
    else
      if vhas acc.1 field.id then (vdel acc.1 field.id, true)
      else acc
  else acc

/-- `updateDerivedFields` of PreviewForm (src/unnamed/part_000
lines 115-153), the spec's Reconciler: one pass over the schema's
fields in schema order, starting from a copy of the input map; returns
the new map together with the `hasChanges` flag (the source signals
"changed" to its caller by returning `newValues` rather than the
original reference exactly when `hasChanges` is set). -/
def updateDerivedFields (runF : RunF) (schema : FormSchema)
    (currentValues : AMap Val) : AMap Val × Bool :=
  List.foldl (reconcileStep runF schema.fields currentValues)
    (currentValues, false) schema.fields

/-- A parsed JavaScript `Date`, reduced to the three accessors the
source uses: `getFullYear`, `getMonth` (0-based) and `getDate`. -/
structure JsDate where
  fullYear : Int
  month : Int
  date : Int
deriving DecidableEq, Repr

/-- The `calculateAge` helper (src/unnamed/part_000 lines 86-99),
with the current date passed explicitly and the host's date parsing
abstracted: `none` models a missing (`!birthDate`) or unparsable
(`isNaN(birth.getTime())`) birth date, both of which return 0. -/
def calculateAge (today : JsDate) (birth : Option JsDate) : Int :=
  match birth with
  | none => 0
  | some b =>
      let age := today.fullYear - b.fullYear
      let monthDiff := today.month - b.month
      if monthDiff < 0 || (monthDiff == 0 && today.date < b.date) then age - 1
      else age

/-- JavaScript truthiness of the `Val` universe, for the `!value` test
in the required check: `''`, `0`, `null`, `undefined` are falsy; every
array is truthy. -/
def isFalsy : Val → Bool
  | Val.str s => s == ""
  | Val.num n => n == 0
  | Val.null => true
  | Val.undef => true
  | Val.list _ => false

/-- The test of `/^\S+@\S+\.\S+$/` (src/unnamed/part_000 line 178):
no whitespace anywhere, at least one character before some `'@'`, at
least one character between that `'@'` and a later `'.'`, and at least
one character after that `'.'`. -/
def emailTest (s : String) : Bool :=
  let cs := s.toList
  let n := cs.length
  List.all cs (fun c => !c.isWhitespace) &&
    List.any (List.range n) (fun i =>
      decide (0 < i) && (List.getD cs i ' ' == '@') &&
        List.any (List.range n) (fun j =>
          decide (i + 1 < j) && decide (j + 1 < n) &&
            (List.getD cs j ' ' == '.')))

/-- The test of `/^.{8,}$/` (src/unnamed/part_000 line 182): at least
8 characters, none of which is a line terminator (which `.` does not
match). -/
def passwordLengthTest (s : String) : Bool :=
  decide (8 ≤ s.length) &&
    List.all s.toList (fun c => !(c == '\n') && !(c == '\r'))

/-- The test of `/\d/` (src/unnamed/part_000 line 182): contains a
decimal digit. -/
def digitTest (s : String) : Bool :=
  List.any s.toList Char.isDigit

/-- `validateField` of PreviewForm (src/unnamed/part_000
lines 164-188).  The required check fails on falsy values and on empty
arrays; the string-typed checks apply only to string values, and the
optional numeric bounds are themselves tested truthily (a 0 bound is
skipped). -/
def validateField (field : Field) (value : Val) : String :=
  let validation := field.validation
  if validation.required &&
      (isFalsy value ||
        (match value with
         | Val.list l => l.isEmpty
         | _ => false)) then
    "This field is required."
  else
    match value with
    | Val.str s =>
        if (match validation.minLength with
            | some n => decide (0 < n) && decide (s.length < n)
            | none => false) then
          "Minimum length is " ++ toString (validation.minLength.getD 0)
        else if (match validation.maxLength with
            | some n => decide (0 < n) && decide (n < s.length)
            | none => false) then
          "Maximum length is " ++ toString (validation.maxLength.getD 0)
        else if validation.email && !(s == "") && !(emailTest s) then
          "Invalid email format."
        else if validation.password && !(s == "") &&
            (!(passwordLengthTest s) || !(digitTest s)) then
          "Password must be at least 8 characters and contain a number."
        else ""
    | _ => ""

/-- The validation part of `handleSubmit` (src/unnamed/part_000
lines 207-214): collect, over the schema's fields in order, a
`newErrors` record with an entry for every non-derived field whose
validation fails; derived fields are skipped entirely. -/
def handleSubmitStep (values : AMap Val) (newErrors : AMap String)
    (field : Field) : AMap String :=
  if !field.derived then
    if !(validateField field (vgetD values field.id) == "") then
      vset newErrors field.id (validateField field (vgetD values field.id))
    else newErrors
  else newErrors

/-- Folding the submit-validation step over the schema's fields in
order, starting from an empty `newErrors` record. -/
def handleSubmitErrors (schema : FormSchema) (values : AMap Val) :
    AMap String :=
  List.foldl (handleSubmitStep values) ([] : AMap String) schema.fields

/-- The test `key.startsWith('form_')`, performed on the underlying
character lists. -/
def startsWithFormKey (k : String) : Bool :=
  List.isPrefixOf "form_".data k.data

/-- The loading effect of `MyForms` (src/src/components/CreateForm.tsx
lines 637-652): take every storage key starting with `form_`, read and
parse each record, and keep only the successfully parsed ones (a parse
failure is logged and the record skipped).  The browser's storage and
`JSON.parse` are abstracted as parameters. -/
def loadForms (store : String → Option String)
    (parse : String → Except Unit FormSchema) (storageKeys : List String) :
    List (String × FormSchema) :=
  List.filterMap
    (fun key =>
      match store key with
      | none => none
      | some raw =>
          match parse raw with
          | Except.ok data => some (key, data)
          | Except.error _ => none)
    (List.filter startsWithFormKey storageKeys)

/-- The loading effect of `PreviewForm` (src/unnamed/part_000
lines 54-70): with no form id or no stored record the schema stays
`none` (the component renders the loading state); a stored record is
fed to `JSON.parse` with no surrounding try/catch, so a parse failure
propagates as an uncaught exception, modelled by `Except.error`. -/
def loadPreviewSchema (store : String → Option String)
    (parse : String → Except Unit FormSchema) (formId : Option String) :
    Except Unit (Option FormSchema) :=
  match formId with
  | none => Except.ok none
  | some fid =>
      match store fid with
      | none => Except.ok none
      | some raw =>
          match parse raw with
          | Except.ok parsed => Except.ok (some parsed)
          | Except.error e => Except.error e

/-! ### Association-map lemmas -/

theorem vhas_eq_isSome {α : Type} (m : AMap α) (k : String) :
    vhas m k = (vget? m k).isSome := by
  induction m with
  | nil => rfl
  | cons p t ih =>
      by_cases h : p.1 == k
      · simp [vhas, vget?, List.find?_cons, h]
      · simpa [vhas, vget?, List.find?_cons, h] using ih

theorem vget?_eq_none_of_not_vhas {α : Type} {m : AMap α} {k : String}
    (h : vhas m k = false) : vget? m k = none := by
  have := vhas_eq_isSome m k
  rw [h] at this
  exact Option.not_isSome_iff_eq_none.mp (by simp [← this])

theorem vget?_vset_self {α : Type} (m : AMap α) (k : String) (v : α) :
    vget? (vset m k v) k = some v := by
  induction m with
  | nil => simp [vset, vget?, List.find?_cons]
  | cons p t ih =>
      by_cases hp : p.1 == k
      · simp [vset, vget?, List.find?_cons, hp]
      · simpa [vset, vget?, List.find?_cons, hp] using ih

theorem vget?_vset_ne {α : Type} (m : AMap α) {k k' : String} (v : α)
    (hne : (k' == k) = false) : vget? (vset m k v) k' = vget? m k' := by
  have hkk : (k == k') = false := by
    simp only [beq_eq_false_iff_ne] at hne ⊢
    exact fun h => hne h.symm
  induction m with
  | nil => simp [vset, vget?, List.find?_cons, hkk]
  | cons p t ih =>
      by_cases hp : p.1 == k
      · have hpk : p.1 = k := by simpa using hp
        have h2 : (p.1 == k') = false := by rw [hpk]; exact hkk
        simp [vset, vget?, List.find?_cons, hp, hkk, h2]
      · by_cases hq : p.1 == k'
        · simp [vset, vget?, List.find?_cons, hp, hq]
        · simpa [vset, vget?, List.find?_cons, hp, hq] using ih

theorem vget?_vdel_self {α : Type} (m : AMap α) (k : String) :
    vget? (vdel m k) k = none := by
  induction m with
  | nil => rfl
  | cons p t ih =>
      by_cases hp : p.1 == k
      · simp only [vdel, List.filter_cons, hp, Bool.not_true]
        exact ih
      · simp only [vdel, List.filter_cons, hp, Bool.not_false, if_pos]
        simp only [vget?, List.find?_cons, hp]
        exact ih

theorem vget?_vdel_ne {α : Type} (m : AMap α) {k k' : String}
    (hne : (k' == k) = false) : vget? (vdel m k) k' = vget? m k' := by
  induction m with
  | nil => rfl
  | cons p t ih =>
      by_cases hp : p.1 == k
      · have hq : (p.1 == k') = false := by
          simp only [beq_eq_false_iff_ne] at hne ⊢
          have hpk : p.1 = k := by simpa using hp
          simpa [hpk] using fun hk => hne hk.symm
        simpa [vdel, vget?, List.filter_cons, List.find?_cons, hp, hq] using ih
      · by_cases hq : p.1 == k'
        · simp [vdel, vget?, List.filter_cons, List.find?_cons, hp, hq]
        · simpa [vdel, vget?, List.filter_cons, List.find?_cons, hp, hq] using ih

theorem vget?_isSome_vset {α : Type} (m : AMap α) (k k' : String) (v : α)
    (h : (vget? m k').isSome = true) : (vget? (vset m k v) k').isSome = true := by
  by_cases hk : k' == k
  · have : k' = k := by simpa using hk
    subst this
    simp [vget?_vset_self]
  · rw [vget?_vset_ne m v (by simpa using hk)]
    exact h

theorem vget?_of_vgetD_ne_undef {m : AMap Val} {k : String} {v : Val}
    (h : vgetD m k = v) (hv : v ≠ Val.undef) : vget? m k = some v := by
  unfold vgetD at h
  cases hq : vget? m k with
  | none => rw [hq] at h; simp at h; exact absurd h.symm hv
  | some w => rw [hq] at h; simp at h; rw [h]

theorem mem_of_vget?_eq_some {α : Type} {m : AMap α} {k : String} {v : α}
    (h : vget? m k = some v) : ∃ p ∈ m, p.2 = v := by
  unfold vget? at h
  cases hf : List.find? (fun p => p.1 == k) m with
  | none => rw [hf] at h; simp at h
  | some p =>
      rw [hf] at h
      simp at h
      exact ⟨p, List.mem_of_find?_eq_some hf, h⟩

theorem beq_symm_false {a b : String} (h : (a == b) = false) :
    (b == a) = false := by
  simp only [beq_eq_false_iff_ne] at h ⊢
  exact fun e => h e.symm

/-! ### Dependency-resolver lemmas -/

/-- The `hasAllParents` flag accumulated by the resolver loop is true
iff it started true and every parent id both resolves in the schema and
has an entry in the value map. -/
theorem buildContext_loop_snd (fields : List Field) (m : AMap Val) :
    ∀ (ps : List String) (acc : AMap Val × Bool),
      (List.foldl (buildContextStep fields m) acc ps).2 =
        (acc.2 && List.all ps (fun pid =>
          (List.find? (fun f => f.id == pid) fields).isSome && vhas m pid)) := by
  intro ps
  induction ps with
  | nil => intro acc; simp
  | cons pid t ih =>
      intro acc
      rw [List.foldl_cons, ih]
      cases hf : List.find? (fun f => f.id == pid) fields with
      | none => simp [buildContextStep, hf]
      | some pf =>
          by_cases hv : vhas m pid
          · simp [buildContextStep, hf, hv, Bool.and_assoc]
          · simp [buildContextStep, hf, hv]

theorem buildContext_snd (fields : List Field) (m : AMap Val)
    (ps : List String) :
    (buildContext fields m ps).2 =
      List.all ps (fun pid =>
        (List.find? (fun f => f.id == pid) fields).isSome && vhas m pid) := by
  unfold buildContext
  rw [buildContext_loop_snd]
  simp

theorem buildContext_loop_congr (fields : List Field) (m₁ m₂ : AMap Val) :
    ∀ ps : List String,
      (∀ pid ∈ ps, vhas m₂ pid = vhas m₁ pid ∧ vgetD m₂ pid = vgetD m₁ pid) →
      ∀ acc, List.foldl (buildContextStep fields m₂) acc ps =
        List.foldl (buildContextStep fields m₁) acc ps := by
  intro ps
  induction ps with
  | nil => intro _ acc; rfl
  | cons pid t ih =>
      intro h acc
      rw [List.foldl_cons, List.foldl_cons]
      have hh := h pid (by simp)
      have hstep : buildContextStep fields m₂ acc pid =
          buildContextStep fields m₁ acc pid := by
        unfold buildContextStep
        cases List.find? (fun f => f.id == pid) fields with
        | none => rfl
        | some pf => rw [hh.1, hh.2]
      rw [hstep]
      exact ih (fun q hq => h q (by simp [hq])) _

/-- The resolver's output depends on the value map only through the
presence and value of the parent ids' entries. -/
theorem buildContext_congr (fields : List Field) (m₁ m₂ : AMap Val)
    {ps : List String}
    (h : ∀ pid ∈ ps, vhas m₂ pid = vhas m₁ pid ∧ vgetD m₂ pid = vgetD m₁ pid) :
    buildContext fields m₂ ps = buildContext fields m₁ ps := by
  unfold buildContext
  exact buildContext_loop_congr fields m₁ m₂ ps h _

/-- If every parent of the list whose label normalizes to `n` (and is
resolvable and present) carries an empty/undefined/null value, then any
value stored under `n` in the accumulated context is such a value. -/
theorem buildContext_loop_emptyish_at (fields : List Field) (m : AMap Val)
    (n : String) :
    ∀ ps : List String,
      (∀ pid ∈ ps, ∀ pf, List.find? (fun f => f.id == pid) fields = some pf →
        vhas m pid = true → normalizeLabel pf.label = n →
        isEmptyish (vgetD m pid) = true) →
      ∀ acc : AMap Val × Bool,
        (∀ v, vget? acc.1 n = some v → isEmptyish v = true) →
        ∀ v, vget? (List.foldl (buildContextStep fields m) acc ps).1 n = some v →
          isEmptyish v = true := by
  intro ps
  induction ps with
  | nil => intro _ acc hacc; exact hacc
  | cons pid t ih =>
      intro hall acc hacc
      rw [List.foldl_cons]
      apply ih (fun q hq => hall q (by simp [hq]))
      intro v hv
      unfold buildContextStep at hv
      cases hf : List.find? (fun f => f.id == pid) fields with
      | none => rw [hf] at hv; exact hacc v hv
      | some pf =>
          rw [hf] at hv
          by_cases hm : vhas m pid
          · simp only [hm, if_pos] at hv
            by_cases hn : (n == normalizeLabel pf.label)
            · have hn' : n = normalizeLabel pf.label := by simpa using hn
              rw [hn', vget?_vset_self] at hv
              have := hall pid (by simp) pf hf hm hn'.symm
              rw [Option.some_inj.mp hv] at this
              exact this
            · rw [vget?_vset_ne _ _ (by simpa using hn)] at hv
              exact hacc v hv
          · simp only [hm, Bool.false_eq_true, if_neg, not_false_iff] at hv
            exact hacc v hv

/-- Once the accumulated context has an entry under `n`, the rest of
the resolver loop never removes it. -/
theorem buildContext_loop_isSome (fields : List Field) (m : AMap Val)
    (n : String) :
    ∀ (ps : List String) (acc : AMap Val × Bool),
      (vget? acc.1 n).isSome = true →
      (vget? (List.foldl (buildContextStep fields m) acc ps).1 n).isSome = true := by
  intro ps
  induction ps with
  | nil => intro acc h; exact h
  | cons pid t ih =>
      intro acc h
      rw [List.foldl_cons]
      apply ih
      unfold buildContextStep
      cases List.find? (fun f => f.id == pid) fields with
      | none => exact h
      | some pf =>
          by_cases hm : vhas m pid
          · simp only [hm, if_pos]
            exact vget?_isSome_vset _ _ _ _ h
          · simpa [hm] using h

/-- If some parent resolves, is present and carries an
empty/undefined/null value, and every other parent normalizing to the
same variable name also carries such a value, then the final context
contains an empty/undefined/null value. -/
theorem buildContext_any_emptyish (fields : List Field) (m : AMap Val)
    {ps : List String} {n : String}
    (hall : ∀ pid ∈ ps, ∀ pf, List.find? (fun f => f.id == pid) fields = some pf →
      vhas m pid = true → normalizeLabel pf.label = n →
      isEmptyish (vgetD m pid) = true)
    (hwit : ∃ pid ∈ ps, ∃ pf,
      List.find? (fun f => f.id == pid) fields = some pf ∧ vhas m pid = true ∧
        normalizeLabel pf.label = n) :
    List.any (buildContext fields m ps).1 (fun p => isEmptyish p.2) = true := by
  obtain ⟨pid, hmem, pf, hf, hm, hn⟩ := hwit
  obtain ⟨l₁, l₂, rfl⟩ := List.append_of_mem hmem
  have hsome : (vget? (buildContext fields m (l₁ ++ pid :: l₂)).1 n).isSome = true := by
    unfold buildContext
    rw [List.foldl_append, List.foldl_cons]
    apply buildContext_loop_isSome
    unfold buildContextStep
    rw [hf]
    simp only [hm, if_pos]
    rw [← hn, vget?_vset_self]
    rfl
  obtain ⟨v, hv⟩ := Option.isSome_iff_exists.mp hsome
  have hemp : isEmptyish v = true := by
    refine buildContext_loop_emptyish_at fields m n (l₁ ++ pid :: l₂) hall
      (([] : AMap Val), true) ?_ v hv
    intro w hw
    simp [vget?] at hw
  obtain ⟨p, hpmem, hpv⟩ := mem_of_vget?_eq_some hv
  rw [List.any_eq_true]
  exact ⟨p, hpmem, by rw [hpv]; exact hemp⟩

/-! ### Reconciler lemmas -/

/-- One reconciliation step only touches the entry of its own field's
id, and only when the field is an active derived field. -/
theorem reconcileStep_frame (runF : RunF) (fs : List Field) (m : AMap Val)
    (acc : AMap Val × Bool) (f : Field) {k : String}
    (h : derivedActive f = true → (f.id == k) = false) :
    vget? (reconcileStep runF fs m acc f).1 k = vget? acc.1 k := by
  unfold reconcileStep
  by_cases ha : derivedActive f
  · have hne := beq_symm_false (h ha)
    simp only [ha, if_pos]
    by_cases hb : (buildContext fs m (f.parentFields.getD [])).2
    · simp only [hb, if_pos]
      by_cases hc : vgetD acc.1 f.id ==
          evalFormula runF (f.formula.getD "")
            (buildContext fs m (f.parentFields.getD [])).1
      · simp [hc]
      · simp only [Bool.not_eq_true] at hc
        simp only [hc, Bool.not_false, if_pos]
        exact vget?_vset_ne _ _ hne
    · simp only [Bool.not_eq_true] at hb
      simp only [hb, Bool.false_eq_true, if_neg, not_false_iff]
      by_cases hd : vhas acc.1 f.id
      · simp only [hd, if_pos]
        exact vget?_vdel_ne _ hne
      · simp [hd]
  · simp only [Bool.not_eq_true] at ha
    simp [ha]

/-- The reconciliation pass leaves every entry alone whose key is not
the id of an active derived field of the iterated list. -/
theorem reconcileLoop_frame (runF : RunF) (fs : List Field) (m : AMap Val)
    {k : String} :
    ∀ (l : List Field) (acc : AMap Val × Bool),
      (∀ f ∈ l, derivedActive f = true → (f.id == k) = false) →
      vget? (List.foldl (reconcileStep runF fs m) acc l).1 k = vget? acc.1 k := by
  intro l
  induction l with
  | nil => intro acc _; rfl
  | cons f t ih =>
      intro acc h
      rw [List.foldl_cons, ih _ (fun g hg => h g (by simp [hg]))]
      exact reconcileStep_frame runF fs m acc f (h f (by simp))

/-- When all parents are available, the step stores exactly the
evaluator's result under the field's id (whatever the accumulator
previously held there). -/
theorem reconcileStep_at_ok (runF : RunF) (fs : List Field) (m : AMap Val)
    (acc : AMap Val × Bool) (d : Field)
    (hact : derivedActive d = true)
    (hok : (buildContext fs m (d.parentFields.getD [])).2 = true) :
    vgetD (reconcileStep runF fs m acc d).1 d.id =
      evalFormula runF (d.formula.getD "")
        (buildContext fs m (d.parentFields.getD [])).1 := by
  unfold reconcileStep
  simp only [hact, hok, if_pos]
  by_cases hc : vgetD acc.1 d.id ==
      evalFormula runF (d.formula.getD "")
        (buildContext fs m (d.parentFields.getD [])).1
  · simp only [hc, Bool.not_true, Bool.false_eq_true, if_neg, not_false_iff]
    simpa using hc
  · simp only [Bool.not_eq_true] at hc
    simp only [hc, Bool.not_false, if_pos]
    unfold vgetD
    rw [vget?_vset_self]
    rfl

/-- When some parent is missing, the step removes the field's entry
(or leaves it absent). -/
theorem reconcileStep_at_fail (runF : RunF) (fs : List Field) (m : AMap Val)
    (acc : AMap Val × Bool) (d : Field)
    (hact : derivedActive d = true)
    (hfail : (buildContext fs m (d.parentFields.getD [])).2 = false) :
    vget? (reconcileStep runF fs m acc d).1 d.id = none := by
  unfold reconcileStep
  simp only [hact, hfail, Bool.false_eq_true, if_pos, if_neg, not_false_iff]
  by_cases hh : vhas acc.1 d.id
  · simp only [hh, if_pos]
    exact vget?_vdel_self _ _
  · simp only [hh, Bool.false_eq_true, if_neg, not_false_iff]
    exact vget?_eq_none_of_not_vhas (by simpa using hh)

/-- Ids of fields listed after a given field are distinct from its id
when the whole list of ids has no duplicates. -/
theorem ids_after_ne {l₁ l₂ : List Field} {d : Field}
    (hnd : (List.map Field.id (l₁ ++ d :: l₂)).Nodup) :
    ∀ f ∈ l₂, (f.id == d.id) = false := by
  intro f hf
  rw [List.map_append, List.map_cons] at hnd
  have h2 : ¬d.id ∈ List.map Field.id l₂ :=
    (List.nodup_cons.mp (List.nodup_append.mp hnd).2.1).1
  simp only [beq_eq_false_iff_ne]
  intro he
  exact h2 (he ▸ List.mem_map_of_mem Field.id hf)

/-- Result of the whole pass at an active derived field's id: when all
its parents are available, the entry holds exactly the evaluator's
result computed from the pre-pass map; when some parent is missing, the
entry is absent.  Holds for any starting accumulator. -/
theorem reconcileLoop_value (runF : RunF) (fs : List Field) (m : AMap Val)
    {l : List Field} {d : Field} (acc : AMap Val × Bool)
    (hmem : d ∈ l) (hnd : (List.map Field.id l).Nodup)
    (hact : derivedActive d = true) :
    ((buildContext fs m (d.parentFields.getD [])).2 = true →
      vgetD (List.foldl (reconcileStep runF fs m) acc l).1 d.id =
        evalFormula runF (d.formula.getD "")
          (buildContext fs m (d.parentFields.getD [])).1) ∧
    ((buildContext fs m (d.parentFields.getD [])).2 = false →
      vget? (List.foldl (reconcileStep runF fs m) acc l).1 d.id = none) := by
  obtain ⟨l₁, l₂, rfl⟩ := List.append_of_mem hmem
  have hne := ids_after_ne hnd
  rw [List.foldl_append, List.foldl_cons]
  have hframe := reconcileLoop_frame runF fs m l₂
    (reconcileStep runF fs m (List.foldl (reconcileStep runF fs m) acc l₁) d)
    (fun f hf _ => hne f hf)
  constructor
  · intro hok
    unfold vgetD
    rw [hframe]
    exact reconcileStep_at_ok runF fs m _ d hact hok
  · intro hfail
    rw [hframe]
    exact reconcileStep_at_fail runF fs m _ d hact hfail

/-- A fold whose every step fixes the accumulator is the identity. -/
theorem reconcileLoop_id (runF : RunF) (fs : List Field) (m : AMap Val)
    (acc : AMap Val × Bool) :
    ∀ l : List Field, (∀ f ∈ l, reconcileStep runF fs m acc f = acc) →
      List.foldl (reconcileStep runF fs m) acc l = acc := by
  intro l
  induction l with
  | nil => intro _; rfl
  | cons f t ih =>
      intro h
      rw [List.foldl_cons, h f (by simp)]
      exact ih (fun g hg => h g (by simp [hg]))

/-! ### Submit-validation lemmas -/

theorem handleSubmitStep_frame (values : AMap Val) (errs : AMap String)
    (f : Field) {k : String}
    (h : f.derived = false → (f.id == k) = false) :
    vget? (handleSubmitStep values errs f) k = vget? errs k := by
  unfold handleSubmitStep
  by_cases hd : f.derived
  · simp [hd]
  · simp only [Bool.not_eq_true] at hd
    have hne := beq_symm_false (h hd)
    simp only [hd, Bool.not_false, if_pos]
    by_cases he : validateField f (vgetD values f.id) == ""
    · simp [he]
    · simp only [Bool.not_eq_true] at he
      simp only [he, Bool.not_false, if_pos]
      exact vget?_vset_ne _ _ hne

theorem handleSubmitLoop_frame (values : AMap Val) {k : String} :
    ∀ (l : List Field) (errs : AMap String),
      (∀ f ∈ l, f.derived = false → (f.id == k) = false) →
      vget? (List.foldl (handleSubmitStep values) errs l) k = vget? errs k := by
  intro l
  induction l with
  | nil => intro errs _; rfl
  | cons f t ih =>
      intro errs h
      rw [List.foldl_cons, ih _ (fun g hg => h g (by simp [hg]))]
      exact handleSubmitStep_frame values errs f (h f (by simp))

theorem handleSubmitStep_at (values : AMap Val) (errs : AMap String)
    (f : Field) (hd : f.derived = false)
    (he : (validateField f (vgetD values f.id) == "") = false) :
    vget? (handleSubmitStep values errs f) f.id =
      some (validateField f (vgetD values f.id)) := by
  unfold handleSubmitStep
  simp only [hd, Bool.not_false, he, if_pos]
  exact vget?_vset_self _ _ _

/-! ### Concrete fixtures used by witnesses and counterexamples -/

def vnone : Validation := { required := false }

def scoreField : Field :=
  { id := "score_field", type := "number", label := "Score", validation := vnone }

def bonusField : Field :=
  { derived := true, parentFields := some ["score_field"],
    formula := some "score * 2", id := "bonus", type := "number",
    label := "Bonus", validation := vnone }

def schemaScore : FormSchema :=
  { name := "score form", fields := [scoreField, bonusField] }

def aField : Field :=
  { id := "a", type := "number", label := "a", validation := vnone }

def bField : Field :=
  { derived := true, parentFields := some ["a"], formula := some "a * 2",
    id := "b", type := "number", label := "b", validation := vnone }

def cField : Field :=
  { derived := true, parentFields := some ["b"], formula := some "b + 1",
    id := "c", type := "number", label := "c", validation := vnone }

/-- Schema with a derived chain a → b → c where the derived parent `b`
appears earlier in schema order than its dependent `c`. -/
def schemaChain : FormSchema :=
  { name := "chain", fields := [aField, bField, cField] }

/-- Non-chained schema: one raw field and one derived field. -/
def schemaPair : FormSchema :=
  { name := "pair", fields := [aField, bField] }

/-- A derived field whose formula always throws. -/
def boomField : Field :=
  { derived := true, parentFields := some ["a"], formula := some "boom",
    id := "boom_out", type := "number", label := "boom", validation := vnone }

def schemaBoom : FormSchema :=
  { name := "boom", fields := [aField, boomField, bField] }

def ctxNum (context : AMap Val) (name : String) : Int :=
  match vget? context name with
  | some (Val.num n) => n
  | _ => 0

/-- A concrete instance of the abstracted host evaluator, understanding
the formulas of the fixtures, and throwing on anything else. -/
def runFDemo : RunF := fun formula context =>
  if formula == "a * 2" then Except.ok (Val.num (2 * ctxNum context "a"))
  else if formula == "b + 1" then Except.ok (Val.num (ctxNum context "b" + 1))
  else Except.error ()

/-! ### Claims -/

/-- C3: for every formula and context, if any value of the context
passed to the evaluator is the empty string, `undefined` or `null`,
`evalFormula` returns the empty-string sentinel.  The conclusion holds
for an arbitrary host evaluator `runF`, so the formula itself is never
invoked. -/
theorem evalFormula_short_circuit (runF : RunF) (formula : String)
    (context : AMap Val)
    (h : List.any context (fun p => isEmptyish p.2) = true) :
    evalFormula runF formula context = Val.str "" := by
  unfold evalFormula
  simp [h]

theorem evalFormula_short_circuit_witness :
    List.any [("age", Val.str "")] (fun p => isEmptyish p.2) = true ∧
      evalFormula runFDemo "age + 1" [("age", Val.str "")] = Val.str "" :=
  ⟨by decide,
   evalFormula_short_circuit runFDemo "age + 1" [("age", Val.str "")] (by decide)⟩

/-- C5: any error thrown while constructing or executing the formula
(modelled by the abstract host evaluator returning `Except.error`)
makes `evalFormula` return the sentinel `"Error"` — in the shallow
embedding `evalFormula` is a total function, so no exception reaches
its caller — and reconciliation of the remaining fields is not halted:
in a schema whose second field's formula always throws, the third
field's derived value is still computed. -/
theorem evalFormula_error_contained :
    (∀ (runF : RunF) (formula : String) (context : AMap Val),
       List.any context (fun p => isEmptyish p.2) = false →
       runF formula context = Except.error () →
       evalFormula runF formula context = Val.str "Error") ∧
    vgetD (updateDerivedFields runFDemo schemaBoom [("a", Val.num 10)]).1
        "boom_out" = Val.str "Error" ∧
    vgetD (updateDerivedFields runFDemo schemaBoom [("a", Val.num 10)]).1
        "b" = Val.num 20 := by
  refine ⟨?_, by decide, by decide⟩
  intro runF formula context h herr
  unfold evalFormula
  simp [h, herr]

theorem evalFormula_error_contained_witness :
    evalFormula (fun _ _ => Except.error ()) "bad(((" [] = Val.str "Error" :=
  evalFormula_error_contained.1 (fun _ _ => Except.error ()) "bad((("
    [] (by decide) rfl

/-- C8: `calculateAge` returns the difference of the years, decremented
by one exactly when the birthday has not yet occurred in the current
year (month/day lexicographic comparison); it returns 0 for a missing
or unparsable date; and on the spec's reference dates, a 2000-06-15
birth date gives 23 on 2024-06-14 and 24 on 2024-06-15 or later in
2024.  Months are 0-based as in JavaScript, so June is month index 5. -/
theorem calculateAge_spec :
    (∀ today b : JsDate,
       calculateAge today (some b) =
         today.fullYear - b.fullYear -
           (if today.month < b.month ∨
               (today.month = b.month ∧ today.date < b.date)
            then 1 else 0)) ∧
    (∀ today : JsDate, calculateAge today none = 0) ∧
    calculateAge ⟨2024, 5, 14⟩ (some ⟨2000, 5, 15⟩) = 23 ∧
    (∀ today : JsDate, today.fullYear = 2024 →
       5 < today.month ∨ (today.month = 5 ∧ 15 ≤ today.date) →
       calculateAge today (some ⟨2000, 5, 15⟩) = 24) := by
  refine ⟨?_, fun _ => rfl, by decide, ?_⟩
  · intro today b
    simp only [calculateAge]
    split
    · rename_i hb
      simp only [Bool.or_eq_true, decide_eq_true_eq, Bool.and_eq_true,
        beq_iff_eq] at hb
      split
      · omega
      · rename_i hp
        exfalso
        rcases hb with h | ⟨h1, h2⟩
        · exact hp (Or.inl (by omega))
        · exact hp (Or.inr ⟨by omega, h2⟩)
    · rename_i hb
      simp only [Bool.or_eq_true, decide_eq_true_eq, Bool.and_eq_true,
        beq_iff_eq, not_or, not_and, not_lt] at hb
      split
      · rename_i hp
        exfalso
        rcases hp with h | ⟨h1, h2⟩
        · omega
        · have := hb.2 (by omega)
          omega
      · omega
  · intro today hy hge
    simp only [calculateAge]
    split
    · rename_i hb
      simp only [Bool.or_eq_true, decide_eq_true_eq, Bool.and_eq_true,
        beq_iff_eq] at hb
      exfalso
      rcases hge with h | ⟨h1, h2⟩ <;> rcases hb with hc | ⟨hc1, hc2⟩ <;> omega
    · simp only [hy]
      omega

theorem calculateAge_spec_witness :
    calculateAge ⟨2024, 5, 15⟩ (some ⟨2000, 5, 15⟩) = 24 ∧
      calculateAge ⟨2024, 5, 14⟩ (some ⟨2000, 5, 15⟩) =
        2024 - 2000 - (if (5 : Int) < 5 ∨ ((5 : Int) = 5 ∧ (14 : Int) < 15)
          then 1 else 0) :=
  ⟨calculateAge_spec.2.2.2 ⟨2024, 5, 15⟩ rfl (Or.inr ⟨rfl, by norm_num⟩),
   calculateAge_spec.1 ⟨2024, 5, 14⟩ ⟨2000, 5, 15⟩⟩

/-- C10 (frame property): the reconciled map agrees with the input map
on every key that is not the id of a derived field carrying both
`parentFields` and a `formula`; only such fields' entries can be added,
modified or removed. -/
theorem updateDerivedFields_frame (runF : RunF) (schema : FormSchema)
    (m : AMap Val) (k : String)
    (h : ∀ f ∈ schema.fields,
      (f.derived && f.parentFields.isSome && f.formula.isSome) = true →
      (f.id == k) = false) :
    vget? (updateDerivedFields runF schema m).1 k = vget? m k := by
  unfold updateDerivedFields
  apply reconcileLoop_frame
  intro f hf hact
  apply h f hf
  unfold derivedActive at hact
  simp only [Bool.and_eq_true] at hact ⊢
  refine ⟨hact.1, ?_⟩
  cases hfm : f.formula with
  | none => rw [hfm] at hact; exact absurd hact.2 (by simp)
  | some s => simp

theorem updateDerivedFields_frame_witness :
    vget? (updateDerivedFields runFDemo schemaScore
        [("score_field", Val.str "10")]).1 "score_field" =
      vget? [("score_field", Val.str "10")] "score_field" :=
  updateDerivedFields_frame runFDemo schemaScore
    [("score_field", Val.str "10")] "score_field" (by decide)

/-- C1 counterexample: the parent `score_field` is present in the map
with the empty-string value, so `hasAllParents` is true and the
evaluator short-circuits to `''`; the derived field `bonus` therefore
stays present in the returned map (holding `''`), contradicting the
claim that its id is absent whenever a parent's value is empty. -/
theorem emptyParent_keeps_entry_counterexample :
    vhas (updateDerivedFields runFDemo schemaScore
        [("score_field", Val.str ""), ("bonus", Val.num 20)]).1 "bonus" = true ∧
    vgetD (updateDerivedFields runFDemo schemaScore
        [("score_field", Val.str ""), ("bonus", Val.num 20)]).1 "bonus" =
      Val.str "" := by
  constructor <;> decide

/-- C1 amended: the derived field's entry is removed exactly when some
parent id is unresolvable in the schema or has no entry in the value
map; when all parents resolve and have entries but some parent's value
is empty/undefined/null (and every parent normalizing to the same
variable name is also empty, so the empty value is not masked by a
label collision), the derived field's entry is set to the empty-string
sentinel and remains present. -/
theorem updateDerivedFields_missing_or_empty_parents :
    (∀ (runF : RunF) (schema : FormSchema) (m : AMap Val) (d : Field),
       (List.map Field.id schema.fields).Nodup → d ∈ schema.fields →
       derivedActive d = true →
       (∃ pid ∈ d.parentFields.getD [],
          List.find? (fun f => f.id == pid) schema.fields = none ∨
            vhas m pid = false) →
       vget? (updateDerivedFields runF schema m).1 d.id = none) ∧
    (∀ (runF : RunF) (schema : FormSchema) (m : AMap Val) (d : Field)
       (n : String),
       (List.map Field.id schema.fields).Nodup → d ∈ schema.fields →
       derivedActive d = true →
       List.all (d.parentFields.getD []) (fun pid =>
         (List.find? (fun f => f.id == pid) schema.fields).isSome &&
           vhas m pid) = true →
       (∀ pid ∈ d.parentFields.getD [], ∀ pf,
          List.find? (fun f => f.id == pid) schema.fields = some pf →
          normalizeLabel pf.label = n → isEmptyish (vgetD m pid) = true) →
       (∃ pid ∈ d.parentFields.getD [], ∃ pf,
          List.find? (fun f => f.id == pid) schema.fields = some pf ∧
            normalizeLabel pf.label = n ∧ isEmptyish (vgetD m pid) = true) →
       vget? (updateDerivedFields runF schema m).1 d.id =
         some (Val.str "")) := by
  constructor
  · intro runF schema m d hnd hmem hact hfail
    have hbad : (buildContext schema.fields m (d.parentFields.getD [])).2 =
        false := by
      rw [buildContext_snd]
      cases hb : List.all (d.parentFields.getD []) (fun pid =>
          (List.find? (fun f => f.id == pid) schema.fields).isSome &&
            vhas m pid) with
      | false => rfl
      | true =>
          exfalso
          obtain ⟨pid, hp, hor⟩ := hfail
          have := List.all_eq_true.mp hb pid hp
          simp only [Bool.and_eq_true] at this
          rcases hor with h | h
          · rw [h] at this
            exact absurd this.1 (by simp)
          · rw [h] at this
            exact absurd this.2 (by simp)
    unfold updateDerivedFields
    exact (reconcileLoop_value runF schema.fields m (m, false) hmem hnd
      hact).2 hbad
  · intro runF schema m d n hnd hmem hact hall hemp hwit
    have hok : (buildContext schema.fields m (d.parentFields.getD [])).2 =
        true := by
      rw [buildContext_snd]
      exact hall
    have hany : List.any
        (buildContext schema.fields m (d.parentFields.getD [])).1
        (fun p => isEmptyish p.2) = true := by
      apply buildContext_any_emptyish schema.fields m
        (fun pid hp pf hf _ hn => hemp pid hp pf hf hn)
      obtain ⟨pid, hp, pf, hf, hn, _⟩ := hwit
      have hv : vhas m pid = true := by
        have := List.all_eq_true.mp hall pid hp
        simp only [Bool.and_eq_true] at this
        exact this.2
      exact ⟨pid, hp, pf, hf, hv, hn⟩
    have hval : evalFormula runF (d.formula.getD "")
        (buildContext schema.fields m (d.parentFields.getD [])).1 =
        Val.str "" := by
      unfold evalFormula
      simp [hany]
    have hres := (reconcileLoop_value runF schema.fields m (m, false) hmem
      hnd hact).1 hok
    rw [hval] at hres
    unfold updateDerivedFields
    exact vget?_of_vgetD_ne_undef hres (by decide)

theorem updateDerivedFields_missing_or_empty_parents_witness :
    vget? (updateDerivedFields runFDemo schemaScore
        [("bonus", Val.num 20)]).1 "bonus" = none ∧
    vget? (updateDerivedFields runFDemo schemaScore
        [("score_field", Val.str "")]).1 "bonus" = some (Val.str "") := by
  constructor
  · exact updateDerivedFields_missing_or_empty_parents.1 runFDemo schemaScore
      [("bonus", Val.num 20)] bonusField (by decide) (by decide) (by decide)
      ⟨"score_field", by decide, Or.inr (by decide)⟩
  · exact updateDerivedFields_missing_or_empty_parents.2 runFDemo schemaScore
      [("score_field", Val.str "")] bonusField "score" (by decide) (by decide)
      (by decide) (by decide)
      (by
        intro pid hp pf hf hn
        have hp' : pid ∈ ["score_field"] := hp
        simp only [List.mem_singleton] at hp'
        subst hp'
        decide)
      ⟨"score_field", by decide, scoreField, by decide, by decide, by decide⟩

/-- C2 counterexample: in `schemaChain` the derived parent `b` appears
earlier in schema order than its dependent `c`, and the pass freshly
computes `b = 20`; yet `c` is computed as `5 + 1 = 6` from `b`'s
pre-pass value 5, not `21` from the freshly computed value, refuting
the claim's "unless schema order places the parent earlier" clause. -/
theorem chained_derived_uses_stale_value_counterexample :
    vgetD (updateDerivedFields runFDemo schemaChain
        [("a", Val.num 10), ("b", Val.num 5)]).1 "b" = Val.num 20 ∧
    vgetD (updateDerivedFields runFDemo schemaChain
        [("a", Val.num 10), ("b", Val.num 5)]).1 "c" = Val.num 6 := by
  constructor <;> decide

/-- C2 amended: within one reconcile pass every derived field is
evaluated on the context built from the pass's input (pre-pass) map,
regardless of where its parents sit in schema order; freshly computed
values are written to the working copy but never read back within the
same pass. -/
theorem updateDerivedFields_reads_prepass_values (runF : RunF)
    (schema : FormSchema) (m : AMap Val) (d : Field)
    (hnd : (List.map Field.id schema.fields).Nodup)
    (hmem : d ∈ schema.fields) (hact : derivedActive d = true)
    (hok : (buildContext schema.fields m (d.parentFields.getD [])).2 = true) :
    vgetD (updateDerivedFields runF schema m).1 d.id =
      evalFormula runF (d.formula.getD "")
        (buildContext schema.fields m (d.parentFields.getD [])).1 := by
  unfold updateDerivedFields
  exact (reconcileLoop_value runF schema.fields m (m, false) hmem hnd
    hact).1 hok

theorem updateDerivedFields_reads_prepass_values_witness :
    vgetD (updateDerivedFields runFDemo schemaChain
        [("a", Val.num 10), ("b", Val.num 5)]).1 "c" =
      evalFormula runFDemo "b + 1"
        (buildContext schemaChain.fields
          [("a", Val.num 10), ("b", Val.num 5)] ["b"]).1 :=
  updateDerivedFields_reads_prepass_values runFDemo schemaChain
    [("a", Val.num 10), ("b", Val.num 5)] cField (by decide) (by decide)
    (by decide) (by decide)

/-- C6: when no derived field depends on another active derived field
and every parent resolves and is present, the pass computes each
derived value from parent entries it never modifies; a second
reconcile pass over the first pass's output therefore changes nothing
and reports `hasChanges = false`. -/
theorem reconcile_second_pass_unchanged (runF : RunF) (schema : FormSchema)
    (m : AMap Val)
    (hnd : (List.map Field.id schema.fields).Nodup)
    (hready : ∀ d ∈ schema.fields, derivedActive d = true →
      ∀ pid ∈ d.parentFields.getD [],
        (Option.any (fun pf => !derivedActive pf)
            (List.find? (fun f => f.id == pid) schema.fields) &&
          vhas m pid) = true) :
    (updateDerivedFields runF schema
      (updateDerivedFields runF schema m).1).2 = false := by
  set mOut := (updateDerivedFields runF schema m).1 with hmOut
  have hpar : ∀ d ∈ schema.fields, derivedActive d = true →
      ∀ pid ∈ d.parentFields.getD [], vget? mOut pid = vget? m pid := by
    intro d hd hact pid hpid
    have h := hready d hd hact pid hpid
    simp only [Bool.and_eq_true] at h
    cases hf : List.find? (fun f => f.id == pid) schema.fields with
    | none =>
        rw [hf] at h
        exact absurd h.1 (by simp [Option.any])
    | some pf =>
        rw [hf] at h
        have hpfna : derivedActive pf = false := by
          have := h.1
          simp only [Option.any, Bool.not_eq_true'] at this
          exact this
        have hpfmem := List.mem_of_find?_eq_some hf
        have hpfid : pf.id = pid := by
          have := List.find?_some hf
          simpa using this
        rw [hmOut]
        unfold updateDerivedFields
        apply reconcileLoop_frame
        intro g hg hgact
        simp only [beq_eq_false_iff_ne]
        intro hgid
        have hgpf : g = pf :=
          List.inj_on_of_nodup_map hnd hg hpfmem (by rw [hgid, hpfid])
        rw [hgpf, hpfna] at hgact
        exact absurd hgact (by simp)
  have hstep : ∀ f ∈ schema.fields,
      reconcileStep runF schema.fields mOut (mOut, false) f = (mOut, false) := by
    intro f hf
    by_cases hact : derivedActive f
    · have hctx : buildContext schema.fields mOut (f.parentFields.getD []) =
          buildContext schema.fields m (f.parentFields.getD []) := by
        apply buildContext_congr
        intro pid hpid
        have hv := hpar f hf hact pid hpid
        constructor
        · rw [vhas_eq_isSome, vhas_eq_isSome, hv]
        · unfold vgetD
          rw [hv]
      have hok : (buildContext schema.fields m (f.parentFields.getD [])).2 =
          true := by
        rw [buildContext_snd, List.all_eq_true]
        intro pid hpid
        have h := hready f hf hact pid hpid
        simp only [Bool.and_eq_true] at h
        cases hfind : List.find? (fun g => g.id == pid) schema.fields with
        | none =>
            rw [hfind] at h
            exact absurd h.1 (by simp [Option.any])
        | some pf => simp [hfind, h.2]
      have hval : vgetD mOut f.id = evalFormula runF (f.formula.getD "")
          (buildContext schema.fields m (f.parentFields.getD [])).1 := by
        rw [hmOut]
        unfold updateDerivedFields
        exact (reconcileLoop_value runF schema.fields m (m, false) hf hnd
          hact).1 hok
      unfold reconcileStep
      rw [hctx]
      simp only [hact, hok, if_pos]
      rw [hval]
      simp
    · unfold reconcileStep
      simp only [Bool.not_eq_true] at hact
      simp [hact]
  show (updateDerivedFields runF schema mOut).2 = false
  unfold updateDerivedFields
  rw [reconcileLoop_id runF schema.fields mOut (mOut, false)
    schema.fields hstep]

theorem reconcile_second_pass_unchanged_witness :
    (updateDerivedFields runFDemo schemaPair
      (updateDerivedFields runFDemo schemaPair
        [("a", Val.num 10), ("b", Val.num 5)]).1).2 = false :=
  reconcile_second_pass_unchanged runFDemo schemaPair
    [("a", Val.num 10), ("b", Val.num 5)] (by decide) (by decide)

/-- The two colliding parents of the spec's example: their labels
differ in case and spacing but normalize to the same variable name. -/
def firstNameField : Field :=
  { id := "p1", type := "text", label := "First Name", validation := vnone }

def firstName2Field : Field :=
  { id := "p2", type := "text", label := "first  name", validation := vnone }

def collisionFields : List Field := [firstNameField, firstName2Field]

/-- C7: for two resolvable parents with entries in the value map, the
resolver binds each parent's value to the variable named by lower-casing
its label and collapsing every whitespace run to one underscore; when
the two names are distinct both bindings survive, and when they
coincide the parent later in `parentFields` order silently overwrites
the earlier one. -/
theorem buildContext_keying_and_collision :
    (∀ (fs : List Field) (m : AMap Val) (p1 p2 : String) (pf1 pf2 : Field),
       List.find? (fun f => f.id == p1) fs = some pf1 →
       List.find? (fun f => f.id == p2) fs = some pf2 →
       vhas m p1 = true → vhas m p2 = true →
       (normalizeLabel pf1.label == normalizeLabel pf2.label) = false →
       vget? (buildContext fs m [p1, p2]).1 (normalizeLabel pf1.label) =
           some (vgetD m p1) ∧
         vget? (buildContext fs m [p1, p2]).1 (normalizeLabel pf2.label) =
           some (vgetD m p2)) ∧
    (∀ (fs : List Field) (m : AMap Val) (p1 p2 : String) (pf1 pf2 : Field),
       List.find? (fun f => f.id == p1) fs = some pf1 →
       List.find? (fun f => f.id == p2) fs = some pf2 →
       vhas m p1 = true → vhas m p2 = true →
       normalizeLabel pf1.label = normalizeLabel pf2.label →
       vget? (buildContext fs m [p1, p2]).1 (normalizeLabel pf1.label) =
         some (vgetD m p2)) := by
  constructor
  · intro fs m p1 p2 pf1 pf2 h1 h2 hv1 hv2 hne
    unfold buildContext
    simp only [List.foldl_cons, List.foldl_nil, buildContextStep, h1, h2,
      hv1, hv2, if_pos]
    constructor
    · rw [vget?_vset_ne _ _ hne]
      exact vget?_vset_self _ _ _
    · exact vget?_vset_self _ _ _
  · intro fs m p1 p2 pf1 pf2 h1 h2 hv1 hv2 heq
    unfold buildContext
    simp only [List.foldl_cons, List.foldl_nil, buildContextStep, h1, h2,
      hv1, hv2, if_pos]
    rw [heq]
    exact vget?_vset_self _ _ _

theorem buildContext_keying_and_collision_witness :
    normalizeLabel "First Name" = "first_name" ∧
    normalizeLabel "first  name" = "first_name" ∧
    vget? (buildContext collisionFields
        [("p1", Val.str "Alice"), ("p2", Val.str "Bob")] ["p1", "p2"]).1
      "first_name" = some (Val.str "Bob") := by
  refine ⟨by decide, by decide, ?_⟩
  exact buildContext_keying_and_collision.2 collisionFields
    [("p1", Val.str "Alice"), ("p2", Val.str "Bob")] "p1" "p2"
    firstNameField firstName2Field (by decide) (by decide) (by decide)
    (by decide) (by decide)

/-- Fixtures for submit validation: a required text field, and the
same validation block on a field marked derived. -/
def reqField : Field :=
  { id := "req", type := "text", label := "Req",
    validation := { required := true } }

def derivedReqField : Field :=
  { derived := true, id := "dreq", type := "text", label := "DReq",
    validation := { required := true } }

def schemaValidate : FormSchema :=
  { name := "validate", fields := [reqField, derivedReqField] }

/-- C9: on submit only non-derived fields are validated: a non-derived
required field whose value is the empty string contributes the
required-error message to `newErrors`, while a key all of whose fields
are marked derived never receives an entry, whatever its validation
block or value. -/
theorem submit_validation_skips_derived :
    (∀ (schema : FormSchema) (values : AMap Val) (f : Field),
       (List.map Field.id schema.fields).Nodup → f ∈ schema.fields →
       f.derived = false → f.validation.required = true →
       vgetD values f.id = Val.str "" →
       vget? (handleSubmitErrors schema values) f.id =
         some "This field is required.") ∧
    (∀ (schema : FormSchema) (values : AMap Val) (k : String),
       (∀ g ∈ schema.fields, g.id = k → g.derived = true) →
       vget? (handleSubmitErrors schema values) k = none) := by
  constructor
  · intro schema values f hnd hmem hd hreq hval
    have hvf : validateField f (vgetD values f.id) =
        "This field is required." := by
      rw [hval]
      unfold validateField
      simp [hreq, isFalsy]
    obtain ⟨l₁, l₂, hsplit⟩ := List.append_of_mem hmem
    have hframe := handleSubmitLoop_frame values l₂
      (handleSubmitStep values
        (List.foldl (handleSubmitStep values) ([] : AMap String) l₁) f)
      (fun g hg _ => ids_after_ne (hsplit ▸ hnd) g hg)
    unfold handleSubmitErrors
    rw [hsplit, List.foldl_append, List.foldl_cons, hframe,
      handleSubmitStep_at values _ f hd (by rw [hvf]; decide), hvf]
  · intro schema values k hall
    unfold handleSubmitErrors
    rw [handleSubmitLoop_frame values schema.fields ([] : AMap String) ?_]
    · rfl
    · intro g hg hgnd
      simp only [beq_eq_false_iff_ne]
      intro he
      have := hall g hg he
      rw [this] at hgnd
      exact absurd hgnd (by simp)

theorem submit_validation_skips_derived_witness :
    vget? (handleSubmitErrors schemaValidate
        [("req", Val.str ""), ("dreq", Val.str "")]) "req" =
      some "This field is required." ∧
    vget? (handleSubmitErrors schemaValidate
        [("req", Val.str ""), ("dreq", Val.str "")]) "dreq" = none := by
  constructor
  · exact submit_validation_skips_derived.1 schemaValidate
      [("req", Val.str ""), ("dreq", Val.str "")] reqField (by decide)
      (by decide) (by decide) (by decide) (by decide)
  · exact submit_validation_skips_derived.2 schemaValidate
      [("req", Val.str ""), ("dreq", Val.str "")] "dreq" (by decide)

/-- A concrete storage and parser for the persistence fixtures: parsing
succeeds only on the record `"GOOD"`, modelling `JSON.parse` throwing
on a malformed record. -/
def storeDemo : String → Option String := fun k =>
  if k == "form_good" then some "GOOD"
  else if k == "form_bad" then some "BAD"
  else none

def parseDemo : String → Except Unit FormSchema := fun raw =>
  if raw == "GOOD" then Except.ok { name := "good form", fields := [] }
  else Except.error ()

/-- C4 counterexample: at preview-load time `JSON.parse` is called with
no surrounding try/catch (src/unnamed/part_000 line 59), so a stored
record that fails to parse makes the load effect throw — the component
crashes instead of rendering the loading/empty "form not found"
state. -/
theorem previewLoad_parse_failure_crashes :
    loadPreviewSchema storeDemo parseDemo (some "form_bad") =
      Except.error () := rfl

/-- C4 amended: when listing saved forms, an unparsable record is
skipped while every parsable `form_`-prefixed record is still listed;
at preview-load time a missing record renders the loading state
(`Except.ok none`), but a present record that fails to parse raises an
uncaught exception rather than being treated as "form not found". -/
theorem malformed_record_policy :
    (∀ (store : String → Option String)
       (parse : String → Except Unit FormSchema)
       (keys : List String) (k raw : String),
       store k = some raw → parse raw = Except.error () →
       ∀ entry ∈ loadForms store parse keys, entry.1 ≠ k) ∧
    (∀ (store : String → Option String)
       (parse : String → Except Unit FormSchema)
       (keys : List String) (k raw : String) (data : FormSchema),
       k ∈ keys → startsWithFormKey k = true → store k = some raw →
       parse raw = Except.ok data → (k, data) ∈ loadForms store parse keys) ∧
    (∀ (store : String → Option String)
       (parse : String → Except Unit FormSchema) (fid : String),
       store fid = none →
       loadPreviewSchema store parse (some fid) = Except.ok none) ∧
    (∀ (store : String → Option String)
       (parse : String → Except Unit FormSchema) (fid raw : String),
       store fid = some raw → parse raw = Except.error () →
       loadPreviewSchema store parse (some fid) = Except.error ()) := by
  refine ⟨?_, ?_, ?_, ?_⟩
  · intro store parse keys k raw hstore hparse entry hentry hek
    unfold loadForms at hentry
    rw [List.mem_filterMap] at hentry
    obtain ⟨a, _, hfa⟩ := hentry
    cases hsa : store a with
    | none =>
        simp only [hsa] at hfa
        exact Option.noConfusion hfa
    | some r =>
        simp only [hsa] at hfa
        cases hpr : parse r with
        | error e =>
            simp only [hpr] at hfa
            exact Option.noConfusion hfa
        | ok data =>
            simp only [hpr, Option.some_inj] at hfa
            have hak : a = k := by rw [← hfa] at hek; exact hek
            rw [hak, hstore] at hsa
            have hraw : raw = r := Option.some_inj.mp hsa
            rw [← hraw, hparse] at hpr
            exact Except.noConfusion hpr
  · intro store parse keys k raw data hk hsw hstore hparse
    unfold loadForms
    rw [List.mem_filterMap]
    refine ⟨k, List.mem_filter.mpr ⟨hk, hsw⟩, ?_⟩
    simp only [hstore, hparse]
  · intro store parse fid hstore
    unfold loadPreviewSchema
    simp only [hstore]
  · intro store parse fid raw hstore hparse
    unfold loadPreviewSchema
    simp only [hstore, hparse]

theorem malformed_record_policy_witness :
    (∀ entry ∈ loadForms storeDemo parseDemo
        ["form_good", "form_bad", "other"], entry.1 ≠ "form_bad") ∧
    ("form_good", ({ name := "good form", fields := [] } : FormSchema)) ∈
      loadForms storeDemo parseDemo ["form_good", "form_bad", "other"] ∧
    loadPreviewSchema storeDemo parseDemo (some "form_missing") =
      Except.ok none ∧
    loadPreviewSchema storeDemo parseDemo (some "form_bad") =
      Except.error () :=
  ⟨malformed_record_policy.1 storeDemo parseDemo
      ["form_good", "form_bad", "other"] "form_bad" "BAD" rfl rfl,
   malformed_record_policy.2.1 storeDemo parseDemo
      ["form_good", "form_bad", "other"] "form_good" "GOOD"
      { name := "good form", fields := [] } (by decide) (by decide) rfl rfl,
   malformed_record_policy.2.2.1 storeDemo parseDemo "form_missing" rfl,
   malformed_record_policy.2.2.2 storeDemo parseDemo "form_bad" "BAD" rfl rfl⟩

end FormBuilder
